import Mathlib

/-!
Verification of the DUNE topology-to-infrastructure compiler.

This file gives a shallow embedding of the core of the repository:
the topology / infrastructure data model (`topology.py`, `infrastructure.py`),
the core allocator (`Dune.allocate` in `dune/__init__.py`), the link
deduplication loop of `Dune.build`, the link-command synthesis
(`Dune._add_link`), the defaults-merging of `Topo._parse_links` /
`Topo._parse_nodes`, and the text exporter (`Dune.dump`).
Python dicts are embedded as association lists in insertion order
(dict iteration order is insertion order); Python exceptions are embedded
with `Except`; in-place list mutation is embedded by explicit state passing.
-/

/-- Python exceptions that the embedded code can raise. -/
inductive PyError where
  | keyError
  | attributeError
  | typeError
  deriving DecidableEq, Repr

/-- The `ConfigSection` enum of `dune/__init__.py` (phases of a per-host config). -/
inductive ConfigSection where
  | pre        -- 'PreSetup'
  | nodes      -- 'Nodes'
  | links      -- 'Links'
  | post       -- 'PostSetup'
  | processes  -- 'Processes'
  | preDown    -- 'PreDown'
  | down       -- 'Down'
  deriving DecidableEq, Repr

/-- One entry of a phynode's core list in `Infra._cores`.  When the
infrastructure declares `cores` as an integer, the stored entries are plain
ints (`list(range(1, cores))`); when it declares a list of lists, the entries
are lists of core IDs (core groups, e.g. NUMA nodes).  The allocator skips
entries that are not lists (`if type(numa) != list: continue`). -/
inductive CoreEntry where
  | flat (core : Nat)
  | group (cores : List Nat)
  deriving DecidableEq, Repr

/-- A pinned process (`Pinned` in `topology.py`).  The only data the allocator
uses is the set of template variables referenced by the process's environment
templates (found by the external template engine's `meta.find_undeclared_variables`);
we embed that pre-extracted variable-name list. -/
structure Pinned where
  envVars : List String
  deriving DecidableEq, Repr

/-- Python's `int()` on a non-empty all-digit character sequence (negative or
otherwise non-numeral suffixes would raise `ValueError`; they are out of scope
and yield `none` here). -/
def digitsToNat? (cs : List Char) : Option Nat :=
  if cs ≠ [] ∧ cs.all Char.isDigit then
    some (cs.foldl (fun n c => n * 10 + (c.toNat - 48)) 0)
  else none

/-- `Pinned._get_cores`: the cores dict always starts with `core_0 -> 0`; every
environment variable of the shape `core_N` (length > 5, prefix `core_`,
numeral suffix) is then added under its own name.  The source's dedup test
`if core not in self._cores` compares an int to the dict's string keys and
hence is always true, so the effective behaviour is plain dict assignment:
insert the key if absent (re-assigning an existing key keeps its position and
value).  Strings are handled through their character lists. -/
def Pinned.getCores (p : Pinned) : List (String × Nat) :=
  p.envVars.foldl
    (fun cores v =>
      if 5 < v.data.length ∧ v.data.take 5 = "core_".data then
        match digitsToNat? (v.data.drop 5) with
        | some n => if cores.any (fun c => c.1 == v) then cores else cores ++ [(v, n)]
        | none => cores
      else cores)
    [("core_0", 0)]

/-- `Pinned._get_n_cores`: the size of the cores dict. -/
def Pinned.getNCores (p : Pinned) : Nat := p.getCores.length

/-- A logical node's configuration (`Node` in `topology.py`), restricted to the
fields the verified components read: the pinned-process list and the
per-interface address dict (`_addresses`).  A node whose configuration has no
`pinned` list makes `Node._get_cores` iterate `None` and crash at parse time,
so every successfully parsed node carries a list here. -/
structure NodeCfg where
  pinned : List Pinned
  addrs : List (String × List String) := []
  deriving DecidableEq, Repr

/-- `Node._get_cores`: the per-process cores dicts, in declared order. -/
def NodeCfg.getCores (n : NodeCfg) : List (List (String × Nat)) :=
  n.pinned.map Pinned.getCores

/-- `Node._get_n_cores`: sum over the pinned processes of their cores-dict sizes. -/
def NodeCfg.getNCores (n : NodeCfg) : Nat :=
  (n.getCores.map List.length).sum

/-- Insert `x` into a list already sorted in descending key order, placing it
before the first element of smaller-or-equal key.  Folding this over a list
(see `sortDesc`) yields exactly Python's `sorted(..., key=key, reverse=True)`:
keys descending, ties kept in original order (Python's sort is stable and
`reverse=True` preserves stability). -/
def insertDesc (key : α → Nat) (x : α) : List α → List α
  | [] => [x]
  | y :: ys => if key y ≤ key x then x :: y :: ys else y :: insertDesc key x ys

/-- Stable descending sort by a Nat key; models `sorted(items, key=..., reverse=True)`. -/
def sortDesc (key : α → Nat) : List α → List α
  | [] => []
  | x :: xs => insertDesc key x (sortDesc key xs)

/-- Pop `k` elements off the end of a list (`numa.pop()` removes the last
element), returning the popped elements in pop order together with the
remaining list. -/
def popMany (cores : List Nat) (k : Nat) : List Nat × List Nat :=
  (cores.reverse.take k, (cores.reverse.drop k).reverse)

/-- The inner loop of `Dune.allocate` over one phynode's core entries:
skip non-list entries, and take the first group whose size is at least
`count` (`if len(numa) >= count`) — note `count` is the *node's* total core
count — popping `k` cores (`[numa.pop() for _ in process]`, `k = len(process)`)
off that group. -/
def findGroup (count k : Nat) : List CoreEntry → Option (List Nat × List CoreEntry)
  | [] => none
  | .flat c :: rest =>
    (findGroup count k rest).map (fun r => (r.1, .flat c :: r.2))
  | .group g :: rest =>
    if count ≤ g.length then
      let r := popMany g k
      some (r.1, .group r.2 :: rest)
    else
      (findGroup count k rest).map (fun r => (r.1, .group g :: r.2))

/-- The per-process loop of `Dune.allocate` over `available.items()`: scan
phynodes in dict (insertion) order, stopping at the first phynode on which
`findGroup` succeeds (the `b` flag / `break`); the pool is updated in place. -/
def allocProc (count k : Nat) :
    List (String × List CoreEntry) →
    Option (String × List Nat) × List (String × List CoreEntry)
  | [] => (none, [])
  | (h, entries) :: rest =>
    match findGroup count k entries with
    | some (cs, entries2) => (some (h, cs), (h, entries2) :: rest)
    | none =>
      let r := allocProc count k rest
      (r.1, (h, entries) :: r.2)

/-- The per-node loop of `Dune.allocate` over `node._get_cores()`: for each
pinned process (its cores dict `proc`), try to allocate `proc.length` cores;
on success append the popped list to `alloc` and overwrite `phynode0` with the
host that served this process; on failure the process is skipped (nothing is
appended, `phynode0` keeps its previous value).  Returns
`((phynode0, alloc), available)`. -/
def allocNode (count : Nat) (avail : List (String × List CoreEntry)) :
    List (List (String × Nat)) →
    (Option String × List (List Nat)) × List (String × List CoreEntry)
  | [] => ((none, []), avail)
  | proc :: procs =>
    match allocProc count proc.length avail with
    | (some (h, cs), avail2) =>
      let r := allocNode count avail2 procs
      ((some (r.1.1.getD h), cs :: r.1.2), r.2)
    | (none, avail2) =>
      allocNode count avail2 procs

/-- The node order used by `Dune.allocate`: `sorted({nid: count}.items(),
key=item[1], reverse=True)`.  Node ids in the graph are unique, so the count
dict enumerates exactly the node list in insertion order and we can sort the
`(nid, cfg)` pairs directly by their count. -/
def allocOrder (nodes : List (String × NodeCfg)) : List (String × NodeCfg) :=
  sortDesc (fun p => p.2.getNCores) nodes

/-- A placement: per node id, the recorded phynode (the value of `phynode0`
after the node's loop) and the per-process core-ID lists. -/
abbrev Placement := List (String × (Option String × List (List Nat)))

/-- The body of `Dune.allocate` after the cache check: iterate the sorted
nodes, threading the mutable core pool, and record
`self._allocation[node] = (phynode0, alloc)` per node (in iteration order,
which is the dict insertion order of the resulting allocation). -/
def allocateFull (avail : List (String × List CoreEntry)) :
    List (String × NodeCfg) → Placement × List (String × List CoreEntry)
  | [] => ([], avail)
  | (nid, cfg) :: rest =>
    let r := allocNode cfg.getNCores avail cfg.getCores
    let r2 := allocateFull r.2 rest
    ((nid, r.1) :: r2.1, r2.2)

/-- One full (uncached) run of `Dune.allocate` from the infrastructure core
pool (`available = deepcopy(self.infra._cores)`) and the topology nodes. -/
def allocateRun (infraCores : List (String × List CoreEntry))
    (nodes : List (String × NodeCfg)) : Placement :=
  (allocateFull infraCores (allocOrder nodes)).1

/-- The state of a `Dune` instance that `allocate` reads and writes:
`self.infra._cores`, the topology nodes with their configs, and the
`self._allocation` cache. -/
structure Dune where
  infraCores : List (String × List CoreEntry)
  topoNodes : List (String × NodeCfg)
  allocation : Option Placement := none
  deriving Repr

/-- `Dune.allocate`: if `self._allocation is not None` return it unchanged;
otherwise compute the allocation from a private copy of the infrastructure
cores, cache it, and return it. -/
def Dune.allocate (d : Dune) : Placement × Dune :=
  match d.allocation with
  | some a => (a, d)
  | none =>
    let a := allocateRun d.infraCores d.topoNodes
    (a, { d with allocation := some a })

/-- All core IDs of one phynode's entry list, flattened. -/
def entryCores : CoreEntry → List Nat
  | .flat c => [c]
  | .group g => g

/-- All core IDs of a pool, flattened across phynodes and entries. -/
def availCores (avail : List (String × List CoreEntry)) : List Nat :=
  avail.flatMap (fun p => p.2.flatMap entryCores)

/-- `Topo._total_cores`: the sum over the topology's nodes of their
`_get_n_cores`. -/
def topoTotalCores (nodes : List (String × NodeCfg)) : Nat :=
  (nodes.map (fun p => p.2.getNCores)).sum

/-- `Infra._total_cores` for list-declared cores: the flattened core count
(`len([c for l in cores for c in l])`) summed over phynodes. -/
def infraTotalCores (avail : List (String × List CoreEntry)) : Nat :=
  (availCores avail).length

/-- Variant of `findGroup` following claim C5's words instead of the source:
the group-size threshold is the *process's own* core-slot count `k` rather
than the node's total `count`. -/
def findGroupClaimed (k : Nat) : List CoreEntry → Option (List Nat × List CoreEntry)
  | [] => none
  | .flat c :: rest =>
    (findGroupClaimed k rest).map (fun r => (r.1, .flat c :: r.2))
  | .group g :: rest =>
    if k ≤ g.length then
      let r := popMany g k
      some (r.1, .group r.2 :: rest)
    else
      (findGroupClaimed k rest).map (fun r => (r.1, .group g :: r.2))

/-- Variant of `allocProc` following claim C5's words (see `findGroupClaimed`). -/
def allocProcClaimed (k : Nat) :
    List (String × List CoreEntry) →
    Option (String × List Nat) × List (String × List CoreEntry)
  | [] => (none, [])
  | (h, entries) :: rest =>
    match findGroupClaimed k entries with
    | some (cs, entries2) => (some (h, cs), (h, entries2) :: rest)
    | none =>
      let r := allocProcClaimed k rest
      (r.1, (h, entries) :: r.2)

/-- Variant of `allocNode` following claim C5's words (see `findGroupClaimed`). -/
def allocNodeClaimed (avail : List (String × List CoreEntry)) :
    List (List (String × Nat)) →
    (Option String × List (List Nat)) × List (String × List CoreEntry)
  | [] => ((none, []), avail)
  | proc :: procs =>
    match allocProcClaimed proc.length avail with
    | (some (h, cs), avail2) =>
      let r := allocNodeClaimed avail2 procs
      ((some (r.1.1.getD h), cs :: r.1.2), r.2)
    | (none, avail2) =>
      allocNodeClaimed avail2 procs

/-- Variant of `allocateFull` following claim C5's words. -/
def allocateFullClaimed (avail : List (String × List CoreEntry)) :
    List (String × NodeCfg) → Placement × List (String × List CoreEntry)
  | [] => ([], avail)
  | (nid, cfg) :: rest =>
    let r := allocNodeClaimed avail cfg.getCores
    let r2 := allocateFullClaimed r.2 rest
    ((nid, r.1) :: r2.1, r2.2)

/-- Variant of `allocateRun` following claim C5's words: the allocator that
selects, per process, the first group whose remaining size is at least that
process's own core-slot count. -/
def allocateRunClaimed (infraCores : List (String × List CoreEntry))
    (nodes : List (String × NodeCfg)) : Placement :=
  (allocateFullClaimed infraCores (allocOrder nodes)).1

/-- A declared (undirected) link of the topology: endpoints `a:ai` and `b:bi`. -/
structure Link where
  a : String
  ai : String
  b : String
  bi : String
  deriving DecidableEq, Repr

/-- A directed edge of the topology multigraph, as iterated by
`self.topo.edges(keys=True)`: `(head, tail, (head_iface, tail_iface))`. -/
structure Edge where
  head : String
  tail : String
  hIface : String
  tIface : String
  deriving DecidableEq, Repr

/-- The forward directed edge a declared link contributes
(`add_edge(head_node, tail_node, key=(head_iface, tail_iface))`). -/
def Link.fwd (l : Link) : Edge := ⟨l.a, l.b, l.ai, l.bi⟩

/-- The reverse directed edge a declared link contributes
(`add_edge(tail_node, head_node, key=(tail_iface, head_iface))`). -/
def Link.rev (l : Link) : Edge := ⟨l.b, l.a, l.bi, l.ai⟩

/-- The two `(node, interface)` endpoints of a declared link. -/
def Link.eps (l : Link) : List (String × String) := [(l.a, l.ai), (l.b, l.bi)]

/-- Whether a directed edge is one of the two orientations of a link. -/
def Link.orientOf (l : Link) (e : Edge) : Bool := e == l.fwd || e == l.rev

/-- The interface list recorded for node `n` in the `iface_set` dict. -/
def ifaceLookup (s : List (String × List String)) (n : String) : List String :=
  (s.lookup n).getD []

/-- `if head not in iface_set: iface_set[head] = []`. -/
def ensureKey (s : List (String × List String)) (n : String) :
    List (String × List String) :=
  if (s.lookup n).isSome then s else s ++ [(n, [])]

/-- `iface_set[n].append(i)` (key `n` present; keys are unique by construction). -/
def appendIface (s : List (String × List String)) (n i : String) :
    List (String × List String) :=
  s.map (fun e => if e.1 == n then (e.1, e.2 ++ [i]) else e)

/-- One iteration of the link loop of `Dune.build`: ensure both endpoint nodes
have an entry in `iface_set`; if neither endpoint interface has been seen for
its node, call `self._add_link(head, tail, ifaces, link)` (recorded here by
appending the edge to the call list) and mark both interfaces as seen. -/
def buildLinksStep (st : List Edge × List (String × List String)) (e : Edge) :
    List Edge × List (String × List String) :=
  let s := ensureKey (ensureKey st.2 e.head) e.tail
  if e.hIface ∉ ifaceLookup s e.head ∧ e.tIface ∉ ifaceLookup s e.tail then
    (st.1 ++ [e], appendIface (appendIface s e.head e.hIface) e.tail e.tIface)
  else
    (st.1, s)

/-- The link loop of `Dune.build` over `self.topo.edges(keys=True, data=True)`:
returns the `_add_link` calls in order, together with the final `iface_set`.
The link-attribute dict rides along into `_add_link` unchanged and plays no
role in deduplication, so it is omitted from `Edge`. -/
def buildLinks (edges : List Edge) : List Edge × List (String × List String) :=
  edges.foldl buildLinksStep ([], [])

/-- Per-phynode command map: `self._configs`.  The phynode key is the value
returned by `_node_to_phynode`, which is `None` when allocation recorded no
host for the node (Python happily uses `None` as a dict key). -/
abbrev Configs := List (Option String × List (ConfigSection × List String))

/-- The state `Dune._add_link` and its helpers read and write: the allocation
(already computed — the source lazily triggers `allocate` through the
`TypeError` handler in `_node_to_phynode` when the cache is still `None`; we
embed the post-allocation calls made by `build`), the topology nodes, and the
per-phynode configs. -/
structure BuildSt where
  allocation : Placement
  topoNodes : List (String × NodeCfg)
  configs : Configs := []
  deriving DecidableEq, Repr

/-- `Dune._node_to_phynode`: `self._allocation[nid][0]`; `KeyError` when the
node id is not in the allocation dict. -/
def nodeToPhynode (st : BuildSt) (nid : String) : Except PyError (Option String) :=
  match st.allocation.lookup nid with
  | some entry => .ok entry.1
  | none => .error .keyError

/-- `Dune._phynode_exec`: append `cmd` to `self._configs[pid][section]`,
creating the section list and/or the phynode dict on `KeyError`. -/
def phynodeExec (cfgs : Configs) (pid : Option String) (sec : ConfigSection)
    (cmd : String) : Configs :=
  match cfgs.lookup pid with
  | some phases =>
    match phases.lookup sec with
    | some _ =>
      cfgs.map (fun e =>
        if e.1 == pid then
          (e.1, e.2.map (fun ph => if ph.1 == sec then (ph.1, ph.2 ++ [cmd]) else ph))
        else e)
    | none =>
      cfgs.map (fun e => if e.1 == pid then (e.1, e.2 ++ [(sec, [cmd])]) else e)
  | none => cfgs ++ [(pid, [(sec, [cmd])])]

/-- `Dune._node_exec` with `environ=None`: wrap the command in
`ip netns exec {nid} bash -c "{cmd}"` on the node's phynode. -/
def nodeExec (st : BuildSt) (nid : String) (sec : ConfigSection) (cmd : String) :
    Except PyError BuildSt := do
  let phy ← nodeToPhynode st nid
  let cfgs := phynodeExec st.configs phy sec
    ("ip netns exec " ++ nid ++ " bash -c \"" ++ cmd ++ "\"")
  .ok { st with configs := cfgs }

/-- `Dune._ip` with a node argument: run `ip -n {nid} {cmd}` on the node's
phynode. -/
def ipCmd (st : BuildSt) (sec : ConfigSection) (cmd : String) (nid : String) :
    Except PyError BuildSt := do
  let phy ← nodeToPhynode st nid
  let cfgs := phynodeExec st.configs phy sec ("ip -n " ++ nid ++ " " ++ cmd)
  .ok { st with configs := cfgs }

/-- `Dune._get_node_id`: the position index of a node id in the topology
(`list(self.topo.nodes).index(nid)`). -/
def getNodeId (st : BuildSt) (nid : String) : Option Nat :=
  (st.topoNodes.map Prod.fst).indexOf? nid

/-- Look up a node's parsed config, as `self.topo.nodes[nid]['cfg']`
(`KeyError` when absent). -/
def topoNodeCfg (st : BuildSt) (nid : String) : Except PyError NodeCfg :=
  match st.topoNodes.lookup nid with
  | some c => .ok c
  | none => .error .keyError

/-- `Dune._add_link`.  Same phynode: emit the veth-pair command.  Different
phynodes: the source calls `self._get_node_idx(head)`, but the class only
defines `_get_node_id`, so Python raises `AttributeError` before anything is
emitted for the cross-host path.  Then (when still alive) shape traffic with
the link's latency/bw (defaults `0ms` / `1gbit`), set the MTU on both
interfaces if configured, add the interface addresses configured on each
endpoint, and bring both interfaces up.  (An address dict value that is the
empty list is falsy in Python and skipped; the fold over `[]` emits nothing,
matching that.) -/
def addLink (st : BuildSt) (head tail : String) (ifaces : String × String)
    (data : List (String × String)) : Except PyError BuildSt := do
  let headPhynode ← nodeToPhynode st head
  let tailPhynode ← nodeToPhynode st tail
  let headIface := ifaces.1
  let tailIface := ifaces.2
  let st ←
    if headPhynode = tailPhynode then
      let cfgs := phynodeExec st.configs headPhynode .links
        ("ip l add dev " ++ headIface ++ " netns " ++ head ++
         " type veth peer name " ++ tailIface ++ " netns " ++ tail)
      Except.ok { st with configs := cfgs }
    else
      Except.error .attributeError
  let delay := (data.lookup "latency").getD "0ms"
  let bw := (data.lookup "bw").getD "1gbit"
  let st ← nodeExec st head .links
    ("tc qdisc add dev " ++ headIface ++ " root netem delay " ++ delay ++ " rate " ++ bw)
  let st ←
    match data.lookup "mtu" with
    | some mtu => do
      let st ← ipCmd st .links ("l set dev " ++ headIface ++ " mtu " ++ mtu) head
      ipCmd st .links ("l set dev " ++ tailIface ++ " mtu " ++ mtu) tail
    | none => Except.ok st
  let headCfg ← topoNodeCfg st head
  let st ←
    match headCfg.addrs.lookup headIface with
    | some addrs =>
      addrs.foldlM (fun s addr => ipCmd s .links ("a add " ++ addr ++ " dev " ++ headIface) head) st
    | none => Except.ok st
  let tailCfg ← topoNodeCfg st tail
  let st ←
    match tailCfg.addrs.lookup tailIface with
    | some addrs =>
      addrs.foldlM (fun s addr => ipCmd s .links ("a add " ++ addr ++ " dev " ++ tailIface) tail) st
    | none => Except.ok st
  let st ← ipCmd st .links ("l set dev " ++ headIface ++ " up") head
  ipCmd st .links ("l set dev " ++ tailIface ++ " up") tail

/-- A YAML-decoded configuration value, as manipulated by the defaults-merging
code of `Topo._parse_links` / `Topo._parse_nodes`. -/
inductive Val where
  | str (s : String)
  | num (n : Int)
  | dict (entries : List (String × Val))
  | list (items : List Val)

/-- `d[k] = v` on a Python dict: overwrite in place (keeping the key's
position) when the key exists, append otherwise. -/
def setKey (d : List (String × Val)) (k : String) (v : Val) : List (String × Val) :=
  if d.any (fun e => e.1 == k) then
    d.map (fun e => if e.1 == k then (k, v) else e)
  else d ++ [(k, v)]

/-- `dst.update(src)` on Python dicts: assign every entry of `src` into `dst`. -/
def dictUpdate (dst src : List (String × Val)) : List (String × Val) :=
  src.foldl (fun d e => setKey d e.1 e.2) dst

/-- The node-defaults merge of `Topo._parse_nodes`: start from a deep copy of
the defaults; for each config entry, if the key exists in the accumulated
config then dispatch on the *accumulated* value's type — dicts merge via
`.update`, lists via `.extend`, anything else is overwritten — and otherwise
the entry is added.  Updating a dict with a non-dict or extending a list with
a non-list raises in Python (other iterables, e.g. strings, are out of scope
here). -/
def mergeNodeCfg (defaults config : List (String × Val)) :
    Except PyError (List (String × Val)) :=
  config.foldlM
    (fun nodeCfg kv =>
      match nodeCfg.lookup kv.1 with
      | some old =>
        match old, kv.2 with
        | .dict d, .dict c => .ok (setKey nodeCfg kv.1 (.dict (dictUpdate d c)))
        | .dict _, _ => .error .typeError
        | .list l, .list c => .ok (setKey nodeCfg kv.1 (.list (l ++ c)))
        | .list _, _ => .error .typeError
        | _, _ => .ok (setKey nodeCfg kv.1 kv.2)
      | none => .ok (nodeCfg ++ [(kv.1, kv.2)]))
    defaults

/-- The link-defaults merge of `Topo._parse_links`:
`for def_key, def_val in defaults.items(): if def_key not in link:
link[def_key] = def_val` — a default is copied wholesale only when the link
does not define the key at all. -/
def fillLinkDefaults (link defaults : List (String × Val)) : List (String × Val) :=
  defaults.foldl
    (fun l kv => if l.any (fun e => e.1 == kv.1) then l else l ++ [(kv.1, kv.2)])
    link

/-- The per-key merge that claim C9 describes, read off the node-merging code:
a key present on both sides combines dict values by key-union (the specific
side winning), list values by concatenation, and otherwise the specific value
wins; a key present on one side keeps that side's value. -/
def mergedLookup (d c : Option Val) : Option Val :=
  match d, c with
  | some (.dict dd), some (.dict cc) => some (.dict (dictUpdate dd cc))
  | some (.list dl), some (.list cl) => some (.list (dl ++ cl))
  | some _, some v => some v
  | some v, none => some v
  | none, c => c

/-- No entry of `entries` is a group that the source's size test
`len(numa) >= count` would accept. -/
def noQualGroup (count : Nat) (entries : List CoreEntry) : Prop :=
  ∀ g, CoreEntry.group g ∈ entries → g.length < count

/-- All core IDs a placement assigned, flattened across nodes and processes. -/
def placementCores (pl : Placement) : List Nat :=
  pl.flatMap (fun e => e.2.2.flatten)

/-- The section headers and phases written by `Dune.dump` for `format='text'`,
in source order. -/
def dumpTextSections : List (String × ConfigSection) :=
  [("# PreSetup", ConfigSection.pre), ("# Nodes", ConfigSection.nodes),
   ("# Links", ConfigSection.links), ("# PostSetup", ConfigSection.post),
   ("# Processes", ConfigSection.processes)]

/-- The text-format body of `Dune.dump` for one phynode's config: write each
section header followed by `config[v]`'s commands; `config[v]` raises
`KeyError` when the phase was never created for this phynode. -/
def dumpText (config : List (ConfigSection × List String)) :
    Except PyError (List String) :=
  dumpTextSections.foldlM
    (fun acc kv =>
      match config.lookup kv.2 with
      | some cmds => .ok (acc ++ [kv.1] ++ cmds)
      | none => .error .keyError)
    []

/-! ## Theorems -/

/-- C3: `allocate` is idempotent: a second call on the resulting instance
returns the identical placement and leaves the instance unchanged, and no
`allocate` call ever mutates the infrastructure's core inventory. -/
theorem allocate_idempotent (d : Dune) :
    d.allocate.2.allocate.1 = d.allocate.1 ∧
    d.allocate.2.allocate.2 = d.allocate.2 ∧
    d.allocate.2.infraCores = d.infraCores := by
  cases h : d.allocation <;> simp [Dune.allocate, h]

/-- C2 (failing run): a topology needing 2 cores on an infrastructure offering
2 cores in one group: the allocator assigns one core list to the first of the
node's two one-core processes and then, with no group left of size ≥ 2 (the
node's total), silently skips the second process — `allocate` returns a
partial placement and raises no `ResourceExhausted`-like failure at all. -/
theorem exhaustion_returns_partial_placement :
    topoTotalCores [("n", ⟨[⟨[]⟩, ⟨[]⟩], []⟩)] = 2 ∧
    infraTotalCores [("h", [.group [0, 1]])] = 2 ∧
    allocateRun [("h", [.group [0, 1]])] [("n", ⟨[⟨[]⟩, ⟨[]⟩], []⟩)]
      = [("n", (some "h", [[1]]))] := by
  decide

/-- C1 (counterexample): a topology whose total requirement (2) equals the
infrastructure's total core count (2, in two groups of one).  The node's two
pinned processes each declare one core slot, yet the allocation assigns
neither of them anything, refuting "allocate succeeds and assigns each pinned
process a list whose length equals its declared core-slot count". -/
theorem allocate_total_fit_counterexample :
    topoTotalCores [("n", ⟨[⟨[]⟩, ⟨[]⟩], []⟩)]
        ≤ infraTotalCores [("h", [.group [10], .group [11]])] ∧
    (NodeCfg.getCores ⟨[⟨[]⟩, ⟨[]⟩], []⟩).map List.length = [1, 1] ∧
    ¬ (∀ e ∈ allocateRun [("h", [.group [10], .group [11]])] [("n", ⟨[⟨[]⟩, ⟨[]⟩], []⟩)],
        e.2.2.map List.length = [1, 1]) := by
  decide

/-- C5 (counterexample): on a node whose processes declare 1 and 2 core slots
(total 3) and a host with a single group of 2 cores, the source allocator
(threshold: the node's total, 3) assigns nothing, while the allocator the
claim describes (threshold: each process's own slot count) would serve the
one-slot process from that group. -/
theorem first_fit_threshold_counterexample :
    allocateRun [("h", [.group [0, 1]])] [("n", ⟨[⟨[]⟩, ⟨["core_1"]⟩], []⟩)]
      ≠ allocateRunClaimed [("h", [.group [0, 1]])] [("n", ⟨[⟨[]⟩, ⟨["core_1"]⟩], []⟩)] := by
  decide

/-- C6 (failing run): one node with two one-core processes, host `h1` offering
the group `[0, 1]` and `h2` offering `[2, 3]`.  The first process is served
from `h1` (core 1), the second from `h2` (core 3, since `h1`'s residue is
smaller than the node total), and the recorded host is `h2` — the host of the
*last* process — so the node's cores straddle two hosts and the placement does
not pin the node to the first process's host. -/
theorem node_not_fixed_to_single_host :
    allocateRun [("h1", [.group [0, 1]]), ("h2", [.group [2, 3]])]
        [("n", ⟨[⟨[]⟩, ⟨[]⟩], []⟩)]
      = [("n", (some "h2", [[1], [3]]))] ∧
    1 ∈ availCores [("h1", [.group [0, 1]])] ∧
    1 ∉ availCores [("h2", [.group [2, 3]])] := by
  decide

/-- C8 (failing run): with `A` and `B` placed on the same phynode, `_add_link`
emits the veth-pair command naming both interfaces (followed by the shaping
and interface-up commands); with `A` and `B` on different phynodes it raises
`AttributeError`, because the cross-host branch calls the undefined
`self._get_node_idx` (the class defines `_get_node_id`), so the VLAN tag is
never derived. -/
theorem cross_host_link_attribute_error :
    addLink ⟨[("A", (some "h1", [[2]])), ("B", (some "h1", [[3]]))],
        [("A", ⟨[⟨[]⟩], []⟩), ("B", ⟨[⟨[]⟩], []⟩)], []⟩ "A" "B" ("eth0", "eth0") []
      = .ok ⟨[("A", (some "h1", [[2]])), ("B", (some "h1", [[3]]))],
        [("A", ⟨[⟨[]⟩], []⟩), ("B", ⟨[⟨[]⟩], []⟩)],
        [(some "h1",
          [(ConfigSection.links,
            ["ip l add dev eth0 netns A type veth peer name eth0 netns B",
             "ip netns exec A bash -c \"tc qdisc add dev eth0 root netem delay 0ms rate 1gbit\"",
             "ip -n A l set dev eth0 up",
             "ip -n B l set dev eth0 up"])])]⟩ ∧
    addLink ⟨[("A", (some "h1", [[2]])), ("B", (some "h2", [[3]]))],
        [("A", ⟨[⟨[]⟩], []⟩), ("B", ⟨[⟨[]⟩], []⟩)], []⟩ "A" "B" ("eth0", "eth0") []
      = .error .attributeError := by
  exact ⟨rfl, rfl⟩

/-- C9 (counterexample): with link attribute `foo: {a: 1}` and declared link
default `foo: {b: 2}`, `_parse_links` keeps the link's dict unchanged (the
default is dropped entirely), whereas the key-union merge the claim describes
(the one `_parse_nodes` performs) would produce `{b: 2, a: 1}`. -/
theorem link_defaults_merge_counterexample :
    fillLinkDefaults [("foo", Val.dict [("a", Val.num 1)])] [("foo", Val.dict [("b", Val.num 2)])]
      = [("foo", Val.dict [("a", Val.num 1)])] ∧
    mergeNodeCfg [("foo", Val.dict [("b", Val.num 2)])] [("foo", Val.dict [("a", Val.num 1)])]
      = .ok [("foo", Val.dict [("b", Val.num 2), ("a", Val.num 1)])] ∧
    ([("foo", Val.dict [("a", Val.num 1)])] : List (String × Val))
      ≠ [("foo", Val.dict [("b", Val.num 2), ("a", Val.num 1)])] := by
  refine ⟨rfl, rfl, ?_⟩
  intro h
  simp at h

/-- C10: the text export of a phynode's config succeeds exactly when the
config contains all five phase keys `PreSetup`, `Nodes`, `Links`, `PostSetup`
and `Processes`; a missing phase makes `config[v]` raise its missing-key
error. -/
theorem dump_text_requires_all_phases (config : List (ConfigSection × List String)) :
    (∃ out, dumpText config = .ok out) ↔
      ((config.lookup .pre).isSome ∧ (config.lookup .nodes).isSome ∧
       (config.lookup .links).isSome ∧ (config.lookup .post).isSome ∧
       (config.lookup .processes).isSome) := by
  cases h1 : config.lookup ConfigSection.pre <;>
    cases h2 : config.lookup ConfigSection.nodes <;>
      cases h3 : config.lookup ConfigSection.links <;>
        cases h4 : config.lookup ConfigSection.post <;>
          cases h5 : config.lookup ConfigSection.processes <;>
            simp [dumpText, dumpTextSections, List.foldlM, Bind.bind, Except.bind,
              h1, h2, h3, h4, h5]
  exact ⟨_, rfl⟩

theorem insertDesc_perm (key : α → Nat) (x : α) (l : List α) :
    (insertDesc key x l).Perm (x :: l) := by
  induction l with
  | nil => simp [insertDesc]
  | cons y ys ih =>
    by_cases h : key y ≤ key x
    · simp [insertDesc, h]
    · simp only [insertDesc, if_neg h]
      exact (ih.cons y).trans (List.Perm.swap x y ys)

theorem sortDesc_perm (key : α → Nat) (l : List α) : (sortDesc key l).Perm l := by
  induction l with
  | nil => simp [sortDesc]
  | cons x xs ih => exact (insertDesc_perm key x (sortDesc key xs)).trans (ih.cons x)

theorem mem_insertDesc (key : α → Nat) (x a : α) (l : List α) :
    a ∈ insertDesc key x l ↔ a = x ∨ a ∈ l := by
  rw [(insertDesc_perm key x l).mem_iff]
  simp

theorem insertDesc_pairwise (key : α → Nat) (x : α) (l : List α)
    (h : l.Pairwise (fun a b => key b ≤ key a)) :
    (insertDesc key x l).Pairwise (fun a b => key b ≤ key a) := by
  induction l with
  | nil => simp [insertDesc]
  | cons y ys ih =>
    rcases List.pairwise_cons.mp h with ⟨hy, hys⟩
    by_cases hxy : key y ≤ key x
    · simp only [insertDesc, if_pos hxy]
      refine List.pairwise_cons.mpr ⟨?_, h⟩
      intro b hb
      rcases List.mem_cons.mp hb with rfl | hb
      · exact hxy
      · exact le_trans (hy _ hb) hxy
    · simp only [insertDesc, if_neg hxy]
      refine List.pairwise_cons.mpr ⟨?_, ih hys⟩
      intro b hb
      rcases (mem_insertDesc key x b ys).mp hb with rfl | hb
      · exact le_of_lt (Nat.lt_of_not_le hxy)
      · exact hy _ hb

theorem sortDesc_pairwise (key : α → Nat) (l : List α) :
    (sortDesc key l).Pairwise (fun a b => key b ≤ key a) := by
  induction l with
  | nil => simp [sortDesc]
  | cons x xs ih => exact insertDesc_pairwise key x _ ih

theorem insertDesc_filter_eq (key : α → Nat) (x : α) (l : List α) (c : Nat)
    (hx : key x = c) :
    (insertDesc key x l).filter (fun a => key a == c) =
      x :: l.filter (fun a => key a == c) := by
  induction l with
  | nil => simp [insertDesc, List.filter_cons, hx]
  | cons y ys ih =>
    by_cases h : key y ≤ key x
    · rw [insertDesc, if_pos h]
      simp [List.filter_cons, hx]
    · rw [insertDesc, if_neg h]
      have hy : ¬ key y = c := by
        have := Nat.lt_of_not_le h
        omega
      simp [List.filter_cons, hy, ih]

theorem insertDesc_filter_ne (key : α → Nat) (x : α) (l : List α) (c : Nat)
    (hx : ¬ key x = c) :
    (insertDesc key x l).filter (fun a => key a == c) =
      l.filter (fun a => key a == c) := by
  induction l with
  | nil => simp [insertDesc, List.filter_cons, hx]
  | cons y ys ih =>
    by_cases h : key y ≤ key x
    · simp [insertDesc, h, List.filter_cons, hx]
    · rw [insertDesc, if_neg h]
      by_cases hy : key y = c <;> simp [List.filter_cons, hy, ih]

theorem sortDesc_filter_stable (key : α → Nat) (l : List α) (c : Nat) :
    (sortDesc key l).filter (fun a => key a == c) = l.filter (fun a => key a == c) := by
  induction l with
  | nil => simp [sortDesc]
  | cons x xs ih =>
    by_cases hx : key x = c
    · rw [sortDesc, insertDesc_filter_eq key x _ c hx, ih]
      simp [List.filter_cons, hx]
    · rw [sortDesc, insertDesc_filter_ne key x _ c hx, ih]
      simp [List.filter_cons, hx]

theorem allocateFull_fst (avail : List (String × List CoreEntry))
    (ns : List (String × NodeCfg)) :
    (allocateFull avail ns).1.map Prod.fst = ns.map Prod.fst := by
  induction ns generalizing avail with
  | nil => simp [allocateFull]
  | cons p rest ih =>
    cases p with
    | mk nid cfg => simp [allocateFull, ih]

/-- C4: `allocate` processes logical nodes in descending order of total
required core count, ties broken by declaration order: the placement lists
nodes exactly in `allocOrder`, which is a permutation of the declared nodes,
pairwise descending in `getNCores`, and preserves, for every count value, the
declared relative order of the nodes having that count (stability). -/
theorem alloc_order_descending_stable (infra : List (String × List CoreEntry)) (nodes : List (String × NodeCfg)) :
    (allocateRun infra nodes).map Prod.fst = (allocOrder nodes).map Prod.fst ∧
    (allocOrder nodes).Perm nodes ∧
    (allocOrder nodes).Pairwise (fun a b => b.2.getNCores ≤ a.2.getNCores) ∧
    ∀ c, (allocOrder nodes).filter (fun p => p.2.getNCores == c)
        = nodes.filter (fun p => p.2.getNCores == c) := by
  exact ⟨allocateFull_fst infra (allocOrder nodes), sortDesc_perm _ nodes,
    sortDesc_pairwise _ nodes, fun c => sortDesc_filter_stable _ nodes c⟩

theorem popMany_perm (g : List Nat) (k : Nat) :
    ((popMany g k).1 ++ (popMany g k).2).Perm g := by
  unfold popMany
  refine ((List.Perm.append_left _ (List.reverse_perm _)).trans ?_)
  rw [List.take_append_drop]
  exact List.reverse_perm g

theorem popMany_length (g : List Nat) (k : Nat) (h : k ≤ g.length) :
    (popMany g k).1.length = k := by
  unfold popMany
  simp [List.length_take]
  omega

theorem perm_pull_middle {α : Type _} (a b c d : List α) (h : (a ++ c).Perm d) :
    (a ++ (b ++ c)).Perm (b ++ d) := by
  rw [← List.append_assoc]
  refine (List.Perm.append_right c List.perm_append_comm).trans ?_
  rw [List.append_assoc]
  exact List.Perm.append_left b h

theorem findGroup_some_perm (count k : Nat) (entries : List CoreEntry)
    (cs : List Nat) (entries2 : List CoreEntry)
    (h : findGroup count k entries = some (cs, entries2)) :
    (cs ++ entries2.flatMap entryCores).Perm (entries.flatMap entryCores) := by
  induction entries generalizing entries2 with
  | nil => simp [findGroup] at h
  | cons e rest ih =>
    cases e with
    | flat c =>
      simp only [findGroup, Option.map_eq_some'] at h
      rcases h with ⟨⟨cs', rest2⟩, hrec, heq⟩
      cases heq
      simp only [List.flatMap_cons, entryCores]
      exact List.perm_middle.trans ((ih rest2 hrec).cons c)
    | group g =>
      by_cases hc : count ≤ g.length
      · simp only [findGroup, if_pos hc, Option.some_inj] at h
        cases h
        simp only [List.flatMap_cons, entryCores, ← List.append_assoc]
        exact List.Perm.append_right _ (popMany_perm g k)
      · simp only [findGroup, if_neg hc, Option.map_eq_some'] at h
        rcases h with ⟨⟨cs', rest2⟩, hrec, heq⟩
        cases heq
        simp only [List.flatMap_cons, entryCores]
        exact perm_pull_middle cs' g _ _ (ih rest2 hrec)

theorem findGroup_some_length (count k : Nat) (entries : List CoreEntry)
    (cs : List Nat) (entries2 : List CoreEntry) (hk : k ≤ count)
    (h : findGroup count k entries = some (cs, entries2)) :
    cs.length = k := by
  induction entries generalizing entries2 with
  | nil => simp [findGroup] at h
  | cons e rest ih =>
    cases e with
    | flat c =>
      simp only [findGroup, Option.map_eq_some'] at h
      rcases h with ⟨⟨cs', rest2⟩, hrec, heq⟩
      cases heq
      exact ih rest2 hrec
    | group g =>
      by_cases hc : count ≤ g.length
      · simp only [findGroup, if_pos hc, Option.some_inj] at h
        cases h
        exact popMany_length g k (le_trans hk hc)
      · simp only [findGroup, if_neg hc, Option.map_eq_some'] at h
        rcases h with ⟨⟨cs', rest2⟩, hrec, heq⟩
        cases heq
        exact ih rest2 hrec

theorem allocProc_some_perm (count k : Nat) (avail : List (String × List CoreEntry))
    (h : String) (cs : List Nat) (avail2 : List (String × List CoreEntry))
    (heq : allocProc count k avail = (some (h, cs), avail2)) :
    (cs ++ availCores avail2).Perm (availCores avail) := by
  induction avail generalizing avail2 with
  | nil => simp [allocProc] at heq
  | cons p rest ih =>
    rcases p with ⟨h0, entries⟩
    rcases hg : findGroup count k entries with _ | ⟨cs0, entries2⟩
    · rcases hr : allocProc count k rest with ⟨r1, r2⟩
      simp only [allocProc, hg, hr, Prod.mk.injEq] at heq
      rcases heq with ⟨heq1, heq2⟩
      subst heq2
      have hperm := ih r2 (by rw [hr, heq1])
      simp only [availCores, List.flatMap_cons] at hperm ⊢
      exact perm_pull_middle cs _ _ _ hperm
    · simp only [allocProc, hg, Prod.mk.injEq, Option.some_inj] at heq
      rcases heq with ⟨heq1, heq2⟩
      rcases Prod.mk.injEq .. ▸ heq1 with ⟨rfl, rfl⟩
      subst heq2
      simp only [availCores, List.flatMap_cons, ← List.append_assoc]
      exact List.Perm.append_right _ (findGroup_some_perm count k entries _ _ hg)

theorem allocProc_none (count k : Nat) (avail : List (String × List CoreEntry))
    (avail2 : List (String × List CoreEntry))
    (heq : allocProc count k avail = (none, avail2)) : avail2 = avail := by
  induction avail generalizing avail2 with
  | nil => simp [allocProc] at heq; exact heq
  | cons p rest ih =>
    rcases p with ⟨h0, entries⟩
    rcases hg : findGroup count k entries with _ | ⟨cs0, entries2⟩
    · rcases hr : allocProc count k rest with ⟨r1, r2⟩
      simp only [allocProc, hg, hr, Prod.mk.injEq] at heq
      rcases heq with ⟨heq1, heq2⟩
      subst heq2
      rw [ih r2 (by rw [hr, ← heq1])]
    · simp only [allocProc, hg, Prod.mk.injEq] at heq
      exact absurd heq.1 (by simp)

theorem allocProc_some_length (count k : Nat) (avail : List (String × List CoreEntry))
    (h : String) (cs : List Nat) (avail2 : List (String × List CoreEntry)) (hk : k ≤ count)
    (heq : allocProc count k avail = (some (h, cs), avail2)) :
    cs.length = k := by
  induction avail generalizing avail2 with
  | nil => simp [allocProc] at heq
  | cons p rest ih =>
    rcases p with ⟨h0, entries⟩
    rcases hg : findGroup count k entries with _ | ⟨cs0, entries2⟩
    · rcases hr : allocProc count k rest with ⟨r1, r2⟩
      simp only [allocProc, hg, hr, Prod.mk.injEq] at heq
      exact ih r2 (by rw [hr, heq.1])
    · simp only [allocProc, hg, Prod.mk.injEq, Option.some_inj] at heq
      rcases Prod.mk.injEq .. ▸ heq.1 with ⟨rfl, rfl⟩
      exact findGroup_some_length count k entries _ _ hk hg

theorem allocNode_perm (count : Nat) (procs : List (List (String × Nat)))
    (avail : List (String × List CoreEntry)) :
    ((allocNode count avail procs).1.2.flatten ++
      availCores (allocNode count avail procs).2).Perm (availCores avail) := by
  induction procs generalizing avail with
  | nil => simp [allocNode]
  | cons proc procs ih =>
    rcases hp : allocProc count proc.length avail with ⟨r1, avail2⟩
    cases r1 with
    | none =>
      have := allocProc_none count proc.length avail avail2 hp
      subst this
      simp only [allocNode, hp]
      exact ih avail2
    | some hc =>
      rcases hc with ⟨h, cs⟩
      simp only [allocNode, hp, List.flatten_cons, List.append_assoc]
      refine ((List.Perm.append_left cs (ih avail2)).trans ?_)
      exact allocProc_some_perm count proc.length avail h cs avail2 hp

theorem allocNode_lengths (count : Nat) (procs : List (List (String × Nat)))
    (avail : List (String × List CoreEntry))
    (hk : ∀ p ∈ procs, p.length ≤ count) :
    ((allocNode count avail procs).1.2.map List.length).Sublist
      (procs.map List.length) := by
  induction procs generalizing avail with
  | nil => simp [allocNode]
  | cons proc procs ih =>
    rcases hp : allocProc count proc.length avail with ⟨r1, avail2⟩
    cases r1 with
    | none =>
      simp only [allocNode, hp, List.map_cons]
      exact (ih avail2 (fun p hp2 => hk p (List.mem_cons_of_mem proc hp2))).cons _
    | some hc =>
      rcases hc with ⟨h, cs⟩
      simp only [allocNode, hp, List.map_cons]
      rw [allocProc_some_length count proc.length avail h cs avail2
        (hk proc (List.mem_cons_self proc procs)) hp]
      exact (ih avail2 (fun p hp2 => hk p (List.mem_cons_of_mem proc hp2))).cons₂ _

theorem allocateFull_perm (avail : List (String × List CoreEntry))
    (ns : List (String × NodeCfg)) :
    (placementCores (allocateFull avail ns).1 ++
      availCores (allocateFull avail ns).2).Perm (availCores avail) := by
  induction ns generalizing avail with
  | nil => simp [allocateFull, placementCores]
  | cons p rest ih =>
    rcases p with ⟨nid, cfg⟩
    simp only [allocateFull, placementCores, List.flatMap_cons, List.append_assoc]
    refine (List.Perm.append_left _ (ih _)).trans ?_
    have := allocNode_perm cfg.getNCores cfg.getCores avail
    rcases hr : allocNode cfg.getNCores avail cfg.getCores with ⟨⟨phy, alloc⟩, avail2⟩
    rw [hr] at this
    exact this

theorem proc_length_le_getNCores (cfg : NodeCfg) (p : List (String × Nat))
    (hp : p ∈ cfg.getCores) : p.length ≤ cfg.getNCores := by
  unfold NodeCfg.getNCores
  exact List.single_le_sum (fun x _ => Nat.zero_le x) _ (List.mem_map_of_mem List.length hp)

theorem allocateFull_lengths (avail : List (String × List CoreEntry))
    (ns : List (String × NodeCfg)) :
    ∀ e ∈ (allocateFull avail ns).1, ∃ cfg, (e.1, cfg) ∈ ns ∧
      (e.2.2.map List.length).Sublist (cfg.getCores.map List.length) := by
  induction ns generalizing avail with
  | nil => simp [allocateFull]
  | cons p rest ih =>
    rcases p with ⟨nid, cfg⟩
    intro e he
    simp only [allocateFull, List.mem_cons] at he
    rcases he with rfl | he
    · refine ⟨cfg, List.mem_cons_self _ _, ?_⟩
      exact allocNode_lengths cfg.getNCores cfg.getCores avail
        (fun p hp => proc_length_le_getNCores cfg p hp)
    · rcases ih _ e he with ⟨cfg2, hmem, hsub⟩
      exact ⟨cfg2, List.mem_cons_of_mem _ hmem, hsub⟩

/-- C1 (amended): every core list the allocator assigns has the length of the
pinned process it was popped for — the per-node assigned lengths form a
sublist (in order) of the node's declared per-process core-slot counts — and,
when the infrastructure's core IDs are pairwise distinct, no core ID is ever
assigned to two different processes (the assigned cores of the whole placement
are pairwise distinct).  The original claim's "allocate always serves every
process when total required ≤ total available" part is refuted by
`allocate_total_fit_counterexample`. -/
theorem allocate_core_lists_sound (infra : List (String × List CoreEntry))
    (nodes : List (String × NodeCfg)) :
    (∀ e ∈ allocateRun infra nodes, ∃ cfg, (e.1, cfg) ∈ nodes ∧
      (e.2.2.map List.length).Sublist (cfg.getCores.map List.length)) ∧
    ((availCores infra).Nodup → (placementCores (allocateRun infra nodes)).Nodup) := by
  constructor
  · intro e he
    rcases allocateFull_lengths infra (allocOrder nodes) e he with ⟨cfg, hmem, hsub⟩
    exact ⟨cfg, (sortDesc_perm _ nodes).mem_iff.mp hmem, hsub⟩
  · intro hnd
    have hperm := allocateFull_perm infra (allocOrder nodes)
    have : ((placementCores (allocateFull infra (allocOrder nodes)).1 ++
        availCores (allocateFull infra (allocOrder nodes)).2)).Nodup :=
      hperm.symm.nodup hnd
    exact this.of_append_left

/-- Witness for C1's amended theorem at a concrete input: discharges the
distinctness hypothesis by computation. -/
theorem allocate_core_lists_sound_witness :
    (placementCores (allocateRun [("h", [.group [0, 1]])] [("n", ⟨[⟨[]⟩], []⟩)])).Nodup :=
  (allocate_core_lists_sound [("h", [.group [0, 1]])] [("n", ⟨[⟨[]⟩], []⟩)]).2 (by decide)

theorem findGroup_first_fit (count k : Nat) (entries : List CoreEntry) :
    (∀ cs entries2, findGroup count k entries = some (cs, entries2) →
      ∃ epre g epost, entries = epre ++ .group g :: epost ∧ noQualGroup count epre ∧
        count ≤ g.length ∧ cs = g.reverse.take k ∧
        entries2 = epre ++ .group ((g.reverse.drop k).reverse) :: epost) ∧
    (findGroup count k entries = none → noQualGroup count entries) := by
  induction entries with
  | nil =>
    constructor
    · intro cs e2 h
      simp [findGroup] at h
    · intro _ g hg
      simp at hg
  | cons e rest ih =>
    constructor
    · intro cs entries2 h
      cases e with
      | flat c =>
        simp only [findGroup, Option.map_eq_some'] at h
        rcases h with ⟨⟨cs', rest2⟩, hrec, heq⟩
        cases heq
        rcases ih.1 cs' rest2 hrec with ⟨epre, g, epost, he, hq, hc, hcs, he2⟩
        refine ⟨.flat c :: epre, g, epost, by simp [he], ?_, hc, hcs, by simp [he2]⟩
        intro g2 hg2
        rcases List.mem_cons.mp hg2 with h2 | h2
        · exact absurd h2 (by simp)
        · exact hq g2 h2
      | group g =>
        by_cases hc : count ≤ g.length
        · simp only [findGroup, if_pos hc, Option.some_inj] at h
          cases h
          exact ⟨[], g, rest, rfl, by intro g2 hg2; simp at hg2, hc, rfl, rfl⟩
        · simp only [findGroup, if_neg hc, Option.map_eq_some'] at h
          rcases h with ⟨⟨cs', rest2⟩, hrec, heq⟩
          cases heq
          rcases ih.1 cs' rest2 hrec with ⟨epre, g', epost, he, hq, hcg, hcs, he2⟩
          refine ⟨.group g :: epre, g', epost, by simp [he], ?_, hcg, hcs, by simp [he2]⟩
          intro g2 hg2
          rcases List.mem_cons.mp hg2 with h2 | h2
          · cases h2
            exact Nat.lt_of_not_le hc
          · exact hq g2 h2
    · intro h
      cases e with
      | flat c =>
        simp only [findGroup] at h
        have hrec : findGroup count k rest = none := by
          rcases hr : findGroup count k rest with _ | r
          · rfl
          · rw [hr] at h; simp at h
        intro g2 hg2
        rcases List.mem_cons.mp hg2 with h2 | h2
        · exact absurd h2 (by simp)
        · exact ih.2 hrec g2 h2
      | group g =>
        by_cases hc : count ≤ g.length
        · simp [findGroup, if_pos hc] at h
        · simp only [findGroup, if_neg hc] at h
          have hrec : findGroup count k rest = none := by
            rcases hr : findGroup count k rest with _ | r
            · rfl
            · rw [hr] at h; simp at h
          intro g2 hg2
          rcases List.mem_cons.mp hg2 with h2 | h2
          · cases h2
            exact Nat.lt_of_not_le hc
          · exact ih.2 hrec g2 h2

/-- C5 (amended): for one pinned process needing `k` core slots on a node
whose total requirement is `count`, the allocator scans hosts in pool order
and each host's entries in order, and serves the process from the first group
whose remaining size is at least the NODE's total `count` (not the process's
own `k`), popping exactly `k` core IDs off the end of that group; every
earlier host and every earlier entry of the chosen host has no group of size
≥ `count`; if no host has such a group, the process is left unassigned and the
pool is unchanged. -/
theorem allocProc_first_fit (count k : Nat) (avail : List (String × List CoreEntry)) :
    (∀ h cs avail2, allocProc count k avail = (some (h, cs), avail2) →
      ∃ pre entries post epre g epost,
        avail = pre ++ (h, entries) :: post ∧
        (∀ q ∈ pre, noQualGroup count q.2) ∧
        entries = epre ++ .group g :: epost ∧ noQualGroup count epre ∧
        count ≤ g.length ∧ cs = g.reverse.take k ∧
        avail2 = pre ++ (h, epre ++ .group ((g.reverse.drop k).reverse) :: epost) :: post) ∧
    (∀ avail2, allocProc count k avail = (none, avail2) →
      avail2 = avail ∧ ∀ q ∈ avail, noQualGroup count q.2) := by
  induction avail with
  | nil =>
    constructor
    · intro h cs avail2 heq
      simp [allocProc] at heq
    · intro avail2 heq
      simp [allocProc] at heq
      exact ⟨heq, by simp⟩
  | cons p rest ih =>
    rcases p with ⟨h0, entries⟩
    constructor
    · intro h cs avail2 heq
      rcases hg : findGroup count k entries with _ | ⟨cs0, entries2⟩
      · rcases hr : allocProc count k rest with ⟨r1, r2⟩
        simp only [allocProc, hg, hr, Prod.mk.injEq] at heq
        rcases heq with ⟨heq1, heq2⟩
        subst heq2
        rcases ih.1 h cs r2 (by rw [hr, heq1]) with
          ⟨pre, entries', post, epre, g, epost, hrest, hpre, hent, hq, hcg, hcs, hr2⟩
        refine ⟨(h0, entries) :: pre, entries', post, epre, g, epost,
          by simp [hrest], ?_, hent, hq, hcg, hcs, by simp [hr2]⟩
        intro q hq2
        rcases List.mem_cons.mp hq2 with rfl | hq2
        · exact findGroup_first_fit count k entries |>.2 hg
        · exact hpre q hq2
      · simp only [allocProc, hg, Prod.mk.injEq, Option.some_inj] at heq
        rcases heq with ⟨heq1, heq2⟩
        rcases Prod.mk.injEq .. ▸ heq1 with ⟨rfl, rfl⟩
        subst heq2
        rcases (findGroup_first_fit count k entries).1 _ _ hg with
          ⟨epre, g, epost, hent, hq, hcg, hcs, hent2⟩
        exact ⟨[], entries, rest, epre, g, epost, rfl, by simp, hent, hq, hcg, hcs,
          by rw [hent2]; rfl⟩
    · intro avail2 heq
      rcases hg : findGroup count k entries with _ | ⟨cs0, entries2⟩
      · rcases hr : allocProc count k rest with ⟨r1, r2⟩
        simp only [allocProc, hg, hr, Prod.mk.injEq] at heq
        rcases heq with ⟨heq1, heq2⟩
        subst heq2
        rcases ih.2 r2 (by rw [hr, ← heq1]) with ⟨hr2, hall⟩
        subst hr2
        refine ⟨rfl, ?_⟩
        intro q hq2
        rcases List.mem_cons.mp hq2 with rfl | hq2
        · exact findGroup_first_fit count k entries |>.2 hg
        · exact hall q hq2
      · simp only [allocProc, hg, Prod.mk.injEq] at heq
        exact absurd heq.1 (by simp)

/-- Witness for C5's amended theorem at a concrete input: the first group of
size ≥ 2 is chosen (skipping a flat entry and a too-small group), and one core
is popped off its end. -/
theorem allocProc_first_fit_witness :
    ∃ pre entries post epre g epost,
      ([("h0", [CoreEntry.flat 7, CoreEntry.group [0], CoreEntry.group [1, 2, 3]])] :
        List (String × List CoreEntry)) = pre ++ ("h0", entries) :: post ∧
      (∀ q ∈ pre, noQualGroup 2 q.2) ∧
      entries = epre ++ .group g :: epost ∧ noQualGroup 2 epre ∧
      2 ≤ g.length ∧ ([3] : List Nat) = g.reverse.take 1 ∧
      [("h0", [CoreEntry.flat 7, CoreEntry.group [0], CoreEntry.group [1, 2]])]
        = pre ++ ("h0", epre ++ .group ((g.reverse.drop 1).reverse) :: epost) :: post :=
  (allocProc_first_fit 2 1
      [("h0", [CoreEntry.flat 7, CoreEntry.group [0], CoreEntry.group [1, 2, 3]])]).1
    "h0" [3] [("h0", [CoreEntry.flat 7, CoreEntry.group [0], CoreEntry.group [1, 2]])]
    (by decide)

theorem lookup_cons_self {β : Type _} (k : String) (v : β) (l : List (String × β)) :
    (((k, v) :: l).lookup k) = some v := by
  simp [List.lookup]

theorem lookup_cons_ne {β : Type _} (k k' : String) (v : β) (l : List (String × β))
    (h : ¬ k' = k) : (((k, v) :: l).lookup k') = l.lookup k' := by
  have hb : (k' == k) = false := by simp [h]
  simp [List.lookup, hb]

theorem lookup_append {β : Type _} (k : String) (l1 l2 : List (String × β)) :
    ((l1 ++ l2).lookup k) = ((l1.lookup k).or (l2.lookup k)) := by
  induction l1 with
  | nil => simp
  | cons kv l1 ih =>
    rcases kv with ⟨k0, v0⟩
    by_cases h : k = k0
    · subst h
      simp [lookup_cons_self]
    · simp only [List.cons_append, lookup_cons_ne _ _ _ _ h, ih]

theorem any_key_eq_lookup_isSome {β : Type _} (k : String) (l : List (String × β)) :
    (l.any (fun e => e.1 == k)) = (l.lookup k).isSome := by
  induction l with
  | nil => simp
  | cons kv rest ih =>
    rcases kv with ⟨k0, v0⟩
    by_cases h : k = k0
    · subst h
      simp [lookup_cons_self]
    · have h2 : ¬ k0 = k := fun hh => h hh.symm
      simp only [List.any_cons, lookup_cons_ne _ _ _ _ h, ih]
      simp [h2]

theorem lookup_eq_none_of_not_mem_keys {β : Type _} (k : String) (l : List (String × β))
    (h : k ∉ l.map Prod.fst) : l.lookup k = none := by
  induction l with
  | nil => simp
  | cons kv rest ih =>
    simp only [List.map_cons, List.mem_cons] at h
    push_neg at h
    rw [lookup_cons_ne _ _ kv.2 _ h.1]
    exact ih h.2

theorem lookup_map_overwrite_self (d : List (String × Val)) (k : String) (v : Val)
    (hp : (d.lookup k).isSome) :
    ((d.map (fun e => if e.1 == k then (k, v) else e)).lookup k) = some v := by
  induction d with
  | nil => simp at hp
  | cons kv rest ih =>
    rcases kv with ⟨k0, v0⟩
    by_cases h0 : k0 = k
    · subst h0
      have hb : ((k0, v0).1 == k0) = true := by simp
      simp only [List.map_cons, hb, if_true]
      exact lookup_cons_self k0 v _
    · have hb : ((k0, v0).1 == k) = false := by simp [h0]
      have h2 : ¬ k = k0 := fun hh => h0 hh.symm
      simp only [List.map_cons, hb, Bool.false_eq_true, if_false]
      rw [lookup_cons_ne _ _ _ _ h2]
      rw [lookup_cons_ne _ _ _ _ h2] at hp
      exact ih hp

theorem lookup_map_overwrite_ne (d : List (String × Val)) (k k' : String) (v : Val)
    (h : ¬ k' = k) :
    ((d.map (fun e => if e.1 == k then (k, v) else e)).lookup k') = d.lookup k' := by
  induction d with
  | nil => simp
  | cons kv rest ih =>
    rcases kv with ⟨k0, v0⟩
    by_cases h0 : k0 = k
    · subst h0
      have hb : ((k0, v0).1 == k0) = true := by simp
      simp only [List.map_cons, hb, if_true]
      rw [lookup_cons_ne _ _ _ _ h, lookup_cons_ne _ _ _ _ h]
      exact ih
    · have hb : ((k0, v0).1 == k) = false := by simp [h0]
      simp only [List.map_cons, hb, Bool.false_eq_true, if_false]
      by_cases h2 : k' = k0
      · subst h2
        rw [lookup_cons_self, lookup_cons_self]
      · rw [lookup_cons_ne _ _ _ _ h2, lookup_cons_ne _ _ _ _ h2]
        exact ih

theorem setKey_lookup_self (d : List (String × Val)) (k : String) (v : Val) :
    (setKey d k v).lookup k = some v := by
  unfold setKey
  by_cases hp : d.any (fun e => e.1 == k)
  · rw [if_pos hp]
    rw [any_key_eq_lookup_isSome] at hp
    exact lookup_map_overwrite_self d k v hp
  · rw [if_neg hp, lookup_append]
    rw [any_key_eq_lookup_isSome] at hp
    rw [Option.not_isSome_iff_eq_none.mp hp]
    simp [lookup_cons_self]

theorem setKey_lookup_ne (d : List (String × Val)) (k : String) (v : Val) (k' : String)
    (h : ¬ k' = k) : (setKey d k v).lookup k' = d.lookup k' := by
  unfold setKey
  by_cases hp : d.any (fun e => e.1 == k)
  · rw [if_pos hp]
    exact lookup_map_overwrite_ne d k k' v h
  · rw [if_neg hp, lookup_append]
    rcases hl : d.lookup k' with _ | v2
    · simp [lookup_cons_ne _ _ _ _ h]
    · simp

theorem fillLinkDefaults_lookup (link defaults : List (String × Val)) (k : String) :
    (fillLinkDefaults link defaults).lookup k = ((link.lookup k).or (defaults.lookup k)) := by
  induction defaults generalizing link with
  | nil => simp [fillLinkDefaults]
  | cons kv rest ih =>
    rcases kv with ⟨k0, v0⟩
    unfold fillLinkDefaults
    simp only [List.foldl_cons]
    rw [show (List.foldl _ _ rest : List (String × Val)) = fillLinkDefaults
      (if link.any (fun e => e.1 == k0) then link else link ++ [(k0, v0)]) rest from rfl]
    rw [ih]
    by_cases hk : k = k0
    · subst hk
      rw [lookup_cons_self]
      by_cases hp : link.any (fun e => e.1 == k)
      · simp only [if_pos hp]
        rw [any_key_eq_lookup_isSome] at hp
        rcases hl : link.lookup k with _ | v2
        · rw [hl] at hp
          simp at hp
        · simp
      · simp only [if_neg hp]
        rw [lookup_append]
        rw [any_key_eq_lookup_isSome] at hp
        rw [Option.not_isSome_iff_eq_none.mp hp]
        simp [lookup_cons_self]
    · rw [lookup_cons_ne _ _ _ _ hk]
      by_cases hp : link.any (fun e => e.1 == k0)
      · simp only [if_pos hp]
      · simp only [if_neg hp]
        rw [lookup_append, lookup_cons_ne _ _ _ _ hk]
        simp

theorem mergedLookup_none_right (x : Option Val) : mergedLookup x none = x := by
  rcases x with _ | v
  · rfl
  · rcases v with s | n | d | l <;> rfl

theorem mergeNodeCfg_cons (acc : List (String × Val)) (kv : String × Val)
    (rest : List (String × Val)) :
    mergeNodeCfg acc (kv :: rest) =
      (mergeNodeCfg acc [kv]).bind (fun a => mergeNodeCfg a rest) := by
  unfold mergeNodeCfg
  simp only [List.foldlM_cons, List.foldlM_nil]
  rcases h : (match acc.lookup kv.1 with
    | some old =>
      match old, kv.2 with
      | .dict d, .dict c => Except.ok (setKey acc kv.1 (.dict (dictUpdate d c)))
      | .dict _, _ => Except.error PyError.typeError
      | .list l, .list c => Except.ok (setKey acc kv.1 (.list (l ++ c)))
      | .list _, _ => Except.error PyError.typeError
      | _, _ => Except.ok (setKey acc kv.1 kv.2)
    | none => Except.ok (acc ++ [(kv.1, kv.2)]) : Except PyError (List (String × Val)))
    with e | a <;> simp [h, Bind.bind, Except.bind, Except.pure, pure]

theorem mergeNodeCfg_single_lookup (acc : List (String × Val)) (kv : String × Val)
    (acc' : List (String × Val)) (h : mergeNodeCfg acc [kv] = .ok acc') :
    acc'.lookup kv.1 = mergedLookup (acc.lookup kv.1) (some kv.2) ∧
    ∀ k', ¬ k' = kv.1 → acc'.lookup k' = acc.lookup k' := by
  rcases kv with ⟨k0, v0⟩
  unfold mergeNodeCfg at h
  simp only [List.foldlM_cons, List.foldlM_nil] at h
  rcases hacc : acc.lookup k0 with _ | old
  · simp only [hacc] at h
    simp only [Bind.bind, Except.bind, pure, Except.pure, Except.ok.injEq] at h
    subst h
    constructor
    · rw [lookup_append, hacc]
      simp [lookup_cons_self, mergedLookup]
    · intro k' hk'
      rw [lookup_append, lookup_cons_ne _ _ _ _ hk']
      simp
  · simp only [hacc] at h
    rcases old with s | n | d | l <;> rcases v0 with s2 | n2 | d2 | l2 <;>
        simp only [Bind.bind, Except.bind, pure, Except.pure, Except.ok.injEq] at h <;>
      first
        | exact absurd h (by simp)
        | (subst h
           refine ⟨?_, fun k' hk' => setKey_lookup_ne acc k0 _ k' hk'⟩
           rw [setKey_lookup_self]
           rfl)

theorem mergeNodeCfg_lookup (config : List (String × Val)) (k : String)
    (acc m : List (String × Val)) (hc : (config.map Prod.fst).Nodup)
    (h : mergeNodeCfg acc config = .ok m) :
    m.lookup k = mergedLookup (acc.lookup k) (config.lookup k) := by
  induction config generalizing acc with
  | nil =>
    unfold mergeNodeCfg at h
    simp only [List.foldlM_nil, pure, Except.pure, Except.ok.injEq] at h
    subst h
    simp [mergedLookup_none_right]
  | cons kv rest ih =>
    rw [mergeNodeCfg_cons] at h
    cases hstep : mergeNodeCfg acc [kv] with
    | error e =>
      rw [hstep] at h
      simp [Except.bind] at h
    | ok acc' =>
      rw [hstep] at h
      simp only [Except.bind] at h
      simp only [List.map_cons, List.nodup_cons] at hc
      have hx := mergeNodeCfg_single_lookup acc kv acc' hstep
      rcases kv with ⟨k0, v0⟩
      by_cases hk : k = k0
      · subst hk
        have hr : rest.lookup k = none := lookup_eq_none_of_not_mem_keys _ _ hc.1
        rw [ih acc' hc.2 h, hr, mergedLookup_none_right, hx.1, lookup_cons_self]
      · rw [ih acc' hc.2 h, hx.2 k hk, lookup_cons_ne _ _ _ _ hk]

/-- C9 (amended): node configurations merge over node defaults as the claim
says — for every key, the merged config's value combines the default and the
specific value per `mergedLookup` (dicts by key-union with the specific side
winning, lists by concatenation, anything else overridden) — but link
attributes do NOT: `_parse_links` only copies a default wholesale when the
link does not define the key, so the link-side lookup is plain
first-of(link, defaults) with no deep merge (refuted as originally stated by
`link_defaults_merge_counterexample`). -/
theorem merge_defaults_semantics (defaults config link ldefaults : List (String × Val))
    (m : List (String × Val)) (hc : (config.map Prod.fst).Nodup)
    (h : mergeNodeCfg defaults config = .ok m) (k : String) :
    m.lookup k = mergedLookup (defaults.lookup k) (config.lookup k) ∧
    (fillLinkDefaults link ldefaults).lookup k
      = ((link.lookup k).or (ldefaults.lookup k)) :=
  ⟨mergeNodeCfg_lookup config k defaults m hc h, fillLinkDefaults_lookup link ldefaults k⟩

/-- Witness for C9's amended theorem at concrete inputs: a list-valued key
concatenates in the node merge, and a link-specific latency shadows the
default. -/
theorem merge_defaults_semantics_witness :
    (([("a", Val.num 1), ("l", Val.list [Val.num 1, Val.num 2]), ("b", Val.num 3)]
        : List (String × Val)).lookup "l"
      = mergedLookup
          (([("a", Val.num 1), ("l", Val.list [Val.num 1])] : List (String × Val)).lookup "l")
          (([("l", Val.list [Val.num 2]), ("b", Val.num 3)] : List (String × Val)).lookup "l")) ∧
    ((fillLinkDefaults [("latency", Val.str "10ms")]
        [("latency", Val.str "0ms"), ("bw", Val.str "1gbit")]).lookup "l"
      = ((([("latency", Val.str "10ms")] : List (String × Val)).lookup "l").or
          (([("latency", Val.str "0ms"), ("bw", Val.str "1gbit")]
            : List (String × Val)).lookup "l"))) :=
  merge_defaults_semantics [("a", Val.num 1), ("l", Val.list [Val.num 1])]
    [("l", Val.list [Val.num 2]), ("b", Val.num 3)]
    [("latency", Val.str "10ms")] [("latency", Val.str "0ms"), ("bw", Val.str "1gbit")]
    [("a", Val.num 1), ("l", Val.list [Val.num 1, Val.num 2]), ("b", Val.num 3)]
    (by decide) rfl "l"

theorem ifaceLookup_ensureKey (s : List (String × List String)) (n n' : String) :
    ifaceLookup (ensureKey s n) n' = ifaceLookup s n' := by
  unfold ensureKey
  by_cases hp : (s.lookup n).isSome
  · rw [if_pos hp]
  · rw [if_neg hp]
    unfold ifaceLookup
    rw [lookup_append]
    by_cases hn : n' = n
    · subst hn
      rw [Option.not_isSome_iff_eq_none.mp hp]
      simp [lookup_cons_self]
    · rw [lookup_cons_ne _ _ _ _ hn]
      simp

theorem ensureKey_lookup_isSome (s : List (String × List String)) (n : String) :
    ((ensureKey s n).lookup n).isSome := by
  unfold ensureKey
  by_cases hp : (s.lookup n).isSome
  · rw [if_pos hp]
    exact hp
  · rw [if_neg hp, lookup_append, Option.not_isSome_iff_eq_none.mp hp]
    simp [lookup_cons_self]

theorem ensureKey_lookup_isSome_mono (s : List (String × List String)) (n n' : String)
    (h : (s.lookup n').isSome) : ((ensureKey s n).lookup n').isSome := by
  unfold ensureKey
  by_cases hp : (s.lookup n).isSome
  · rw [if_pos hp]
    exact h
  · rw [if_neg hp, lookup_append]
    rcases hl : s.lookup n' with _ | v
    · rw [hl] at h
      simp at h
    · simp

theorem appendIface_lookup_self (s : List (String × List String)) (n : String) (i : String) :
    (appendIface s n i).lookup n = (s.lookup n).map (fun l => l ++ [i]) := by
  unfold appendIface
  induction s with
  | nil => simp
  | cons kv rest ih =>
    rcases kv with ⟨k0, l0⟩
    by_cases h0 : k0 = n
    · subst h0
      have hb : ((k0, l0).1 == k0) = true := by simp
      simp only [List.map_cons, hb, if_true]
      rw [lookup_cons_self, lookup_cons_self]
      rfl
    · have hb : ((k0, l0).1 == n) = false := by simp [h0]
      have h2 : ¬ n = k0 := fun hh => h0 hh.symm
      simp only [List.map_cons, hb, Bool.false_eq_true, if_false]
      rw [lookup_cons_ne _ _ _ _ h2, lookup_cons_ne _ _ _ _ h2]
      exact ih

theorem appendIface_lookup_ne (s : List (String × List String)) (n i n' : String)
    (h : ¬ n' = n) : (appendIface s n i).lookup n' = s.lookup n' := by
  unfold appendIface
  induction s with
  | nil => simp
  | cons kv rest ih =>
    rcases kv with ⟨k0, l0⟩
    by_cases h0 : k0 = n
    · subst h0
      have hb : ((k0, l0).1 == k0) = true := by simp
      simp only [List.map_cons, hb, if_true]
      rw [lookup_cons_ne _ _ _ _ h, lookup_cons_ne _ _ _ _ h]
      exact ih
    · have hb : ((k0, l0).1 == n) = false := by simp [h0]
      simp only [List.map_cons, hb, Bool.false_eq_true, if_false]
      by_cases h2 : n' = k0
      · subst h2
        rw [lookup_cons_self, lookup_cons_self]
      · rw [lookup_cons_ne _ _ _ _ h2, lookup_cons_ne _ _ _ _ h2]
        exact ih

theorem appendIface_lookup_isSome (s : List (String × List String)) (n i n' : String)
    (h : (s.lookup n').isSome) : ((appendIface s n i).lookup n').isSome := by
  by_cases hn : n' = n
  · subst hn
    rw [appendIface_lookup_self]
    rcases hl : s.lookup n' with _ | v
    · rw [hl] at h
      simp at h
    · simp
  · rw [appendIface_lookup_ne _ _ _ _ hn]
    exact h

theorem orientOf_iff (l : Link) (e : Edge) : l.orientOf e ↔ (e = l.fwd ∨ e = l.rev) := by
  unfold Link.orientOf
  simp

theorem orient_endpoints (l : Link) (e : Edge) (h : l.orientOf e) :
    (e.head, e.hIface) ∈ l.eps ∧ (e.tail, e.tIface) ∈ l.eps := by
  rcases (orientOf_iff l e).mp h with rfl | rfl <;> simp [Link.fwd, Link.rev, Link.eps]

theorem orient_endpoint_cases (l : Link) (e : Edge) (h : l.orientOf e)
    (p : String × String) (hp : p ∈ l.eps) :
    (p.1 = e.head ∧ p.2 = e.hIface) ∨ (p.1 = e.tail ∧ p.2 = e.tIface) := by
  rcases (orientOf_iff l e).mp h with rfl | rfl <;>
    simp only [Link.eps, List.mem_cons, List.not_mem_nil, or_false] at hp <;>
    rcases hp with rfl | rfl <;> simp [Link.fwd, Link.rev]

theorem shared_endpoint_eq (links : List Link) (hN : (links.flatMap Link.eps).Nodup)
    (l1 l2 : Link) (h1 : l1 ∈ links) (h2 : l2 ∈ links) (p : String × String)
    (hp1 : p ∈ l1.eps) (hp2 : p ∈ l2.eps) : l1 = l2 := by
  induction links with
  | nil => simp at h1
  | cons l0 rest ih =>
    simp only [List.flatMap_cons] at hN
    rw [List.nodup_append] at hN
    rcases List.mem_cons.mp h1 with h1e | h1r
    · rcases List.mem_cons.mp h2 with h2e | h2r
      · exact h1e.trans h2e.symm
      · subst h1e
        exact ((hN.2.2 hp1) (List.mem_flatMap.mpr ⟨l2, h2r, hp2⟩)).elim
    · rcases List.mem_cons.mp h2 with h2e | h2r
      · subst h2e
        exact ((hN.2.2 hp2) (List.mem_flatMap.mpr ⟨l1, h1r, hp1⟩)).elim
      · exact ih hN.2.1 h1r h2r

theorem orient_unique (links : List Link) (hN : (links.flatMap Link.eps).Nodup)
    (l1 l2 : Link) (h1 : l1 ∈ links) (h2 : l2 ∈ links) (e : Edge)
    (ho1 : l1.orientOf e) (ho2 : l2.orientOf e) : l1 = l2 :=
  shared_endpoint_eq links hN l1 l2 h1 h2 (e.head, e.hIface)
    (orient_endpoints l1 e ho1).1 (orient_endpoints l2 e ho2).1

theorem ifaceLookup_appendIface_self (s : List (String × List String)) (n i : String)
    (hp : (s.lookup n).isSome) :
    ifaceLookup (appendIface s n i) n = ifaceLookup s n ++ [i] := by
  unfold ifaceLookup
  rw [appendIface_lookup_self]
  rcases hl : s.lookup n with _ | L
  · rw [hl] at hp
    simp at hp
  · simp

theorem ifaceLookup_appendIface_ne (s : List (String × List String)) (n i n' : String)
    (h : ¬ n' = n) : ifaceLookup (appendIface s n i) n' = ifaceLookup s n' := by
  unfold ifaceLookup
  rw [appendIface_lookup_ne _ _ _ _ h]

theorem mem_ifaceLookup_after_emit (s : List (String × List String))
    (hd tl hi ti n i : String) :
    i ∈ ifaceLookup (appendIface (appendIface (ensureKey (ensureKey s hd) tl) hd hi) tl ti) n ↔
      (i ∈ ifaceLookup s n ∨ (n = hd ∧ i = hi) ∨ (n = tl ∧ i = ti)) := by
  have hL : ∀ m, ifaceLookup (ensureKey (ensureKey s hd) tl) m = ifaceLookup s m := by
    intro m
    rw [ifaceLookup_ensureKey, ifaceLookup_ensureKey]
  have hhd : ((ensureKey (ensureKey s hd) tl).lookup hd).isSome :=
    ensureKey_lookup_isSome_mono _ tl hd (ensureKey_lookup_isSome s hd)
  have htl : ((ensureKey (ensureKey s hd) tl).lookup tl).isSome :=
    ensureKey_lookup_isSome _ tl
  have htl2 : ((appendIface (ensureKey (ensureKey s hd) tl) hd hi).lookup tl).isSome :=
    appendIface_lookup_isSome _ _ _ _ htl
  by_cases hnt : n = tl
  · subst hnt
    rw [ifaceLookup_appendIface_self _ _ _ htl2]
    by_cases hnh : n = hd
    · subst hnh
      rw [ifaceLookup_appendIface_self _ _ _ hhd, hL]
      simp only [List.mem_append, List.mem_singleton]
      tauto
    · rw [ifaceLookup_appendIface_ne _ _ _ _ (by exact fun hh => hnh hh), hL]
      simp only [List.mem_append, List.mem_singleton]
      tauto
  · rw [ifaceLookup_appendIface_ne _ _ _ _ hnt]
    by_cases hnh : n = hd
    · subst hnh
      rw [ifaceLookup_appendIface_self _ _ _ hhd, hL]
      simp only [List.mem_append, List.mem_singleton]
      tauto
    · rw [ifaceLookup_appendIface_ne _ _ _ _ hnh, hL]
      tauto

theorem match_endpoint_mem_eps (l' : Link) (e' : Edge) (ho : l'.orientOf e')
    (n i : String)
    (hm : (n = e'.head ∧ i = e'.hIface) ∨ (n = e'.tail ∧ i = e'.tIface)) :
    (n, i) ∈ l'.eps := by
  rcases orient_endpoints l' e' ho with ⟨h1, h2⟩
  rcases hm with ⟨rfl, rfl⟩ | ⟨rfl, rfl⟩
  · exact h1
  · exact h2

theorem buildLinks_invariant (links : List Link) (hN : (links.flatMap Link.eps).Nodup)
    (es : List Edge) :
    ∀ (st : List Edge × List (String × List String)),
    (∀ e ∈ es, ∃ l ∈ links, l.orientOf e) →
    (∀ e ∈ st.1, ∃ l ∈ links, l.orientOf e) →
    (∀ n i, i ∈ ifaceLookup st.2 n ↔
      ∃ e ∈ st.1, (n = e.head ∧ i = e.hIface) ∨ (n = e.tail ∧ i = e.tIface)) →
    (∀ l ∈ links, st.1.countP (fun e => l.orientOf e) ≤ 1) →
    ((∀ e ∈ (es.foldl buildLinksStep st).1, ∃ l ∈ links, l.orientOf e) ∧
     (∀ l ∈ links, (es.foldl buildLinksStep st).1.countP (fun e => l.orientOf e) ≤ 1) ∧
     (∀ l ∈ links, ((∃ e ∈ (es.foldl buildLinksStep st).1, l.orientOf e) ↔
        ((∃ e ∈ st.1, l.orientOf e) ∨ ∃ e ∈ es, l.orientOf e)))) := by
  induction es with
  | nil =>
    intro st hE hO hM hC
    refine ⟨hO, hC, fun l hl => ?_⟩
    simp only [List.foldl_nil]
    simp
  | cons e rest ih =>
    intro st hE hO hM hC
    obtain ⟨l0, hl0, ho0⟩ := hE e (List.mem_cons_self e rest)
    have hErest : ∀ e' ∈ rest, ∃ l ∈ links, l.orientOf e' :=
      fun e' he' => hE e' (List.mem_cons_of_mem e he')
    have hLs : ∀ n, ifaceLookup (ensureKey (ensureKey st.2 e.head) e.tail) n
        = ifaceLookup st.2 n := by
      intro n
      rw [ifaceLookup_ensureKey, ifaceLookup_ensureKey]
    simp only [List.foldl_cons]
    by_cases hem : ∃ e' ∈ st.1, l0.orientOf e'
    · -- the link of `e` was already synthesized: the step skips `e`
      have hmem : e.hIface ∈ ifaceLookup (ensureKey (ensureKey st.2 e.head) e.tail) e.head := by
        rcases hem with ⟨e', he', ho'⟩
        rw [hLs]
        refine (hM e.head e.hIface).mpr ⟨e', he', ?_⟩
        exact orient_endpoint_cases l0 e' ho' (e.head, e.hIface) (orient_endpoints l0 e ho0).1
      have hstep : buildLinksStep st e = (st.1, ensureKey (ensureKey st.2 e.head) e.tail) := by
        unfold buildLinksStep
        rw [if_neg]
        intro hcond
        exact hcond.1 hmem
      rw [hstep]
      have hM' : ∀ n i, i ∈ ifaceLookup (ensureKey (ensureKey st.2 e.head) e.tail) n ↔
          ∃ e' ∈ st.1, (n = e'.head ∧ i = e'.hIface) ∨ (n = e'.tail ∧ i = e'.tIface) := by
        intro n i
        rw [hLs]
        exact hM n i
      rcases ih (st.1, ensureKey (ensureKey st.2 e.head) e.tail) hErest hO hM' hC with
        ⟨rO, rC, rIff⟩
      refine ⟨rO, rC, fun l hl => ?_⟩
      rw [rIff l hl]
      constructor
      · rintro (hin | hin)
        · exact Or.inl hin
        · exact Or.inr ⟨_, List.mem_cons_of_mem e hin.choose_spec.1, hin.choose_spec.2⟩
      · rintro (hin | ⟨e2, he2, ho2⟩)
        · exact Or.inl hin
        · rcases List.mem_cons.mp he2 with rfl | he2
          · left
            have : l = l0 := orient_unique links hN l l0 hl hl0 e2 ho2 ho0
            subst this
            exact hem
          · exact Or.inr ⟨e2, he2, ho2⟩
    · -- first time this link is seen: the step emits `_add_link`
      have hnotin : e.hIface ∉ ifaceLookup (ensureKey (ensureKey st.2 e.head) e.tail) e.head := by
        rw [hLs]
        intro hmem
        rcases (hM e.head e.hIface).mp hmem with ⟨e', he', hmatch⟩
        rcases hO e' he' with ⟨l', hl', ho'⟩
        have heps : (e.head, e.hIface) ∈ l'.eps :=
          match_endpoint_mem_eps l' e' ho' _ _ hmatch
        have : l' = l0 := shared_endpoint_eq links hN l' l0 hl' hl0 _ heps
          (orient_endpoints l0 e ho0).1
        subst this
        exact hem ⟨e', he', ho'⟩
      have hnotin2 : e.tIface ∉ ifaceLookup (ensureKey (ensureKey st.2 e.head) e.tail) e.tail := by
        rw [hLs]
        intro hmem
        rcases (hM e.tail e.tIface).mp hmem with ⟨e', he', hmatch⟩
        rcases hO e' he' with ⟨l', hl', ho'⟩
        have heps : (e.tail, e.tIface) ∈ l'.eps :=
          match_endpoint_mem_eps l' e' ho' _ _ hmatch
        have : l' = l0 := shared_endpoint_eq links hN l' l0 hl' hl0 _ heps
          (orient_endpoints l0 e ho0).2
        subst this
        exact hem ⟨e', he', ho'⟩
      have hstep : buildLinksStep st e = (st.1 ++ [e],
          appendIface (appendIface (ensureKey (ensureKey st.2 e.head) e.tail)
            e.head e.hIface) e.tail e.tIface) := by
        unfold buildLinksStep
        rw [if_pos ⟨hnotin, hnotin2⟩]
      rw [hstep]
      have hO' : ∀ e' ∈ st.1 ++ [e], ∃ l ∈ links, l.orientOf e' := by
        intro e' he'
        rcases List.mem_append.mp he' with he' | he'
        · exact hO e' he'
        · rw [List.mem_singleton.mp he']
          exact ⟨l0, hl0, ho0⟩
      have hM' : ∀ n i,
          i ∈ ifaceLookup (appendIface (appendIface (ensureKey (ensureKey st.2 e.head) e.tail)
            e.head e.hIface) e.tail e.tIface) n ↔
          ∃ e' ∈ st.1 ++ [e], (n = e'.head ∧ i = e'.hIface) ∨ (n = e'.tail ∧ i = e'.tIface) := by
        intro n i
        rw [mem_ifaceLookup_after_emit]
        constructor
        · rintro (hin | ⟨rfl, rfl⟩ | ⟨rfl, rfl⟩)
          · rcases (hM n i).mp hin with ⟨e', he', hmatch⟩
            exact ⟨e', List.mem_append.mpr (Or.inl he'), hmatch⟩
          · exact ⟨e, List.mem_append.mpr (Or.inr (List.mem_singleton.mpr rfl)), Or.inl ⟨rfl, rfl⟩⟩
          · exact ⟨e, List.mem_append.mpr (Or.inr (List.mem_singleton.mpr rfl)), Or.inr ⟨rfl, rfl⟩⟩
        · rintro ⟨e', he', hmatch⟩
          rcases List.mem_append.mp he' with he' | he'
          · exact Or.inl ((hM n i).mpr ⟨e', he', hmatch⟩)
          · rw [List.mem_singleton.mp he'] at hmatch
            rcases hmatch with ⟨rfl, rfl⟩ | ⟨rfl, rfl⟩
            · exact Or.inr (Or.inl ⟨rfl, rfl⟩)
            · exact Or.inr (Or.inr ⟨rfl, rfl⟩)
      have hC' : ∀ l ∈ links, (st.1 ++ [e]).countP (fun e2 => l.orientOf e2) ≤ 1 := by
        intro l hl
        rw [List.countP_append]
        by_cases hll : l = l0
        · subst hll
          have hz : st.1.countP (fun e2 => l.orientOf e2) = 0 :=
            List.countP_eq_zero.mpr (fun e2 he2 hpe2 => hem ⟨e2, he2, hpe2⟩)
          rw [hz]
          simp [List.countP_cons, ho0]
        · have : ¬ l.orientOf e := by
            intro ho
            exact hll (orient_unique links hN l l0 hl hl0 e ho ho0)
          simp only [List.countP_cons, List.countP_nil, this]
          simpa using hC l hl
      rcases ih (st.1 ++ [e],
          appendIface (appendIface (ensureKey (ensureKey st.2 e.head) e.tail)
            e.head e.hIface) e.tail e.tIface) hErest hO' hM' hC' with ⟨rO, rC, rIff⟩
      refine ⟨rO, rC, fun l hl => ?_⟩
      rw [rIff l hl]
      constructor
      · rintro (⟨e2, he2, ho2⟩ | ⟨e2, he2, ho2⟩)
        · rcases List.mem_append.mp he2 with he2 | he2
          · exact Or.inl ⟨e2, he2, ho2⟩
          · rw [List.mem_singleton.mp he2] at ho2
            exact Or.inr ⟨e, List.mem_cons_self e rest, ho2⟩
        · exact Or.inr ⟨e2, List.mem_cons_of_mem e he2, ho2⟩
      · rintro (⟨e2, he2, ho2⟩ | ⟨e2, he2, ho2⟩)
        · exact Or.inl ⟨e2, List.mem_append.mpr (Or.inl he2), ho2⟩
        · rcases List.mem_cons.mp he2 with rfl | he2
          · exact Or.inl ⟨e2, List.mem_append.mpr (Or.inr (List.mem_singleton.mpr rfl)), ho2⟩
          · exact Or.inr ⟨e2, he2, ho2⟩

/-- C7: when the iterated directed edges are exactly orientations of the
declared links (each link contributing its two directions, in any order and
either direction first) and interface names are unique per node across links
(each `(node, interface)` endpoint belongs to one link), the link loop of
`build` calls `_add_link` exactly once per declared undirected link. -/
theorem build_links_once_per_pair (links : List Link) (edges : List Edge)
    (hE : ∀ e ∈ edges, ∃ l ∈ links, l.orientOf e)
    (hL : ∀ l ∈ links, ∃ e ∈ edges, l.orientOf e)
    (hN : (links.flatMap Link.eps).Nodup) :
    ∀ l ∈ links, (buildLinks edges).1.countP (fun e => l.orientOf e) = 1 := by
  intro l hl
  have base := buildLinks_invariant links hN edges ([], [])
    hE (by simp) (by intro n i; simp [ifaceLookup]) (by simp)
  rcases base with ⟨rO, rC, rIff⟩
  have hpos : 0 < (buildLinks edges).1.countP (fun e => l.orientOf e) := by
    rw [List.countP_pos_iff]
    exact (rIff l hl).mpr (Or.inr (hL l hl))
  have hle := rC l hl
  unfold buildLinks at *
  omega

/-- Witness for C7 at a concrete input: one link `A:eth0 -- B:eth0`, whose two
directed edges are iterated forward-first, yields exactly one `_add_link`
call. -/
theorem build_links_once_per_pair_witness :
    (buildLinks [⟨"A", "B", "eth0", "eth0"⟩, ⟨"B", "A", "eth0", "eth0"⟩]).1.countP
      (fun e => Link.orientOf ⟨"A", "eth0", "B", "eth0"⟩ e) = 1 :=
  build_links_once_per_pair [⟨"A", "eth0", "B", "eth0"⟩]
    [⟨"A", "B", "eth0", "eth0"⟩, ⟨"B", "A", "eth0", "eth0"⟩]
    (by decide) (by decide) (by decide)
    ⟨"A", "eth0", "B", "eth0"⟩ (List.mem_singleton.mpr rfl)
